import Mathlib

/-!
Shallow embedding of src/contentAwareResize.ts (seam-carving content-aware image
width resizing) together with theorems settling the specification claims.

Conventions of the embedding:
* JavaScript numbers are idealized: energy values live in an arbitrary
  linearly ordered additive commutative monoid (instantiated at ℤ for concrete
  evaluations and at ℝ for the pipeline, where the source takes square roots);
  the Infinity initializers of the source are modelled by the top element of
  WithTop.
* Pixel channel values (Uint8ClampedArray entries) are modelled as integers.
* A JavaScript runtime TypeError (reading or destructuring null / undefined)
  is modelled by returning none from an Option-valued function; the error
  propagates through callers via Option / Except plumbing.
* Mutable state (the pixel buffer, the shrinking size record) is threaded
  explicitly.
-/

namespace SeamCarving

/-- Source type Coordinate: the coordinate of a pixel, line 5. -/
structure Coordinate where
  x : ℕ
  y : ℕ
deriving DecidableEq

/-- Source type ImageSize, line 2: logical width and height of the image. -/
structure ImageSize where
  w : ℕ
  h : ℕ
deriving DecidableEq

/-- Source type Color, lines 15-20: RGBA channels of one pixel.  The alpha
channel is carried but never read by the energy computation. -/
structure Color where
  r : ℤ
  g : ℤ
  b : ℤ
  a : ℤ
deriving DecidableEq

/-- The ImageData interface used by the source: a flat channel buffer
(every 4 consecutive entries are the RGBA channels of one pixel), with the
fixed physical width and height.  The buffer is modelled as a total function
from flat indices to channel values. -/
structure ImageData where
  width : ℕ
  height : ℕ
  data : ℕ → ℤ

/-! ## findLowEnergySeam, source lines 125-200

The dynamic-programming table seamEnergies stores, per pixel, the record
SeamPixelMeta with field energy (cumulative energy), field coordinate and
field previous.  We embed the three fields as separate functions of the row
and column: cumul for energy, predX for the column of previous, while the
coordinate field is reproduced inside backtrack (note the source stores the
row-0 coordinate as x colon 0, y colon col, source line 143).

The energy map argument is embedded as a total function of row and column
together with its dimensions w and h; the source only reads entries with
y smaller than h and x smaller than w. -/

/-- One pass of the inner candidate loop of source lines 153-158: candidate
index i (an integer, since the loop starts at x - 1) is taken when it is in
bounds and its stored energy is strictly below the accumulator.  The
accumulator pairs minPrevEnergy (initially Infinity, modelled by the top
element) with minPrevX (initially x). -/
def stepMin {α : Type} [LinearOrderedAddCommMonoid α] (prev : ℕ → WithTop α) (w : ℕ)
    (acc : WithTop α × ℕ) (i : ℤ) : WithTop α × ℕ :=
  if 0 ≤ i ∧ i < (w : ℤ) ∧ prev i.toNat < acc.1 then (prev i.toNat, i.toNat) else acc

/-- The candidate loop of source lines 151-158: fold of stepMin over the
three candidate columns x - 1, x, x + 1 of the row above, starting from
minPrevEnergy = Infinity and minPrevX = x. -/
def minPrev {α : Type} [LinearOrderedAddCommMonoid α] (prev : ℕ → WithTop α) (w x : ℕ) :
    WithTop α × ℕ :=
  [(x : ℤ) - 1, (x : ℤ), (x : ℤ) + 1].foldl (stepMin prev w) (⊤, x)

/-- Field energy of seamEnergies: row 0 copies the energy map (source lines
140-146); row y + 1 stores minPrevEnergy + energyMap at the pixel (source
lines 160-161). -/
def cumul {α : Type} [LinearOrderedAddCommMonoid α] (e : ℕ → ℕ → α) (w : ℕ) :
    ℕ → ℕ → WithTop α
  | 0, x => (e 0 x : WithTop α)
  | (y+1), x => (minPrev (cumul e w y) w x).1 + (e (y+1) x : WithTop α)

/-- Field previous of seamEnergies at a row y + 1: source line 163 records
the coordinate with x = minPrevX and row y. -/
def predX {α : Type} [LinearOrderedAddCommMonoid α] (e : ℕ → ℕ → α) (w y x : ℕ) : ℕ :=
  (minPrev (cumul e w (y - 1)) w x).2

/-- The scan of the last row, source lines 170-178: lastMinCoordinate starts
as null (none) and minSeamEnergy as Infinity (top); a column replaces the
accumulator when its energy is strictly smaller. -/
def lastMinScan {α : Type} [LinearOrderedAddCommMonoid α] (lastRow : ℕ → WithTop α) (w h : ℕ) :
    Option Coordinate :=
  ((List.range w).foldl
    (fun acc x => if lastRow x < acc.1 then (lastRow x, some ⟨x, h - 1⟩) else acc)
    ((⊤ : WithTop α), (none : Option Coordinate))).2

/-- The backtracking loop of source lines 188-197, pushing the stored
coordinate fields while following the previous pointers.  At a row y + 1
the stored coordinate is the pair (x, y + 1) built at source line 162; at
row 0 it is the pair built at source line 143, whose fields read
x colon 0, y colon col, hence the first component 0 below. -/
def backtrack {α : Type} [LinearOrderedAddCommMonoid α] (e : ℕ → ℕ → α) (w : ℕ) :
    ℕ → ℕ → List Coordinate
  | 0, x => [⟨0, x⟩]
  | (y+1), x => ⟨x, y+1⟩ :: backtrack e w y (minPrev (cumul e w y) w x).2

/-- Source lines 135-200.  When w is positive and h = 0 the population of
row 0 (source lines 140-146) reads row 0 of the h-row matrices, which does
not exist, so the access throws: modelled by none.  Otherwise the function
scans the last row; a null lastMinCoordinate yields the empty seam (source
lines 182-184), else the backtracked list is returned as is (the source does
not reverse it). -/
def findLowEnergySeam {α : Type} [LinearOrderedAddCommMonoid α] (e : ℕ → ℕ → α) (w h : ℕ) :
    Option (List Coordinate) :=
  if 0 < w ∧ h = 0 then none
  else
    match lastMinScan (cumul e w (h - 1)) w h with
    | none => some []
    | some c => some (backtrack e w c.y c.x)

/-! ## Specification-side notions used to state the claims about the DP. -/

/-- The window of valid predecessor columns for column x: the columns
x - 1, x, x + 1 clamped to the interval from 0 inclusive to w exclusive.
The condition x le j + 1 encodes j ge x - 1 without natural truncation. -/
def windowF (x w : ℕ) : Finset ℕ :=
  (Finset.range w).filter (fun j => x ≤ j + 1 ∧ j ≤ x + 1)

theorem windowF_nonempty {x w : ℕ} (hx : x < w) : (windowF x w).Nonempty := by
  refine ⟨x, ?_⟩
  simp [windowF, hx]

theorem mem_windowF {j x w : ℕ} : j ∈ windowF x w ↔ j < w ∧ x ≤ j + 1 ∧ j ≤ x + 1 := by
  simp [windowF]

/-- Total energy of a candidate seam listed from its bottom row y upwards:
the head of the list is the column in row y, the next entry the column in
row y - 1, and so on. -/
def costFrom {α : Type} [LinearOrderedAddCommMonoid α] (e : ℕ → ℕ → α) : ℕ → List ℕ → α
  | _, [] => 0
  | y, x :: p => e y x + costFrom e (y - 1) p

/-- The proposition that p is an 8-connected top-to-bottom seam of columns
(listed from row y downwards to row 0, one column per row, head first)
ending at column x of row y, with every column inside the width w and
consecutive columns differing by at most 1. -/
inductive IsSeamTo (w : ℕ) : ℕ → ℕ → List ℕ → Prop
  | base {x : ℕ} (hx : x < w) : IsSeamTo w 0 x [x]
  | step {y x x' : ℕ} {p : List ℕ} (hx : x < w) (hadj : x ≤ x' + 1 ∧ x' ≤ x + 1)
      (hp : IsSeamTo w y x' p) : IsSeamTo w (y + 1) x (x :: p)

theorem IsSeamTo.head_lt {w y x : ℕ} {p : List ℕ} (h : IsSeamTo w y x p) : x < w := by
  cases h with
  | base hx => exact hx
  | step hx hadj hp => exact hx

/-! ## Properties of the candidate fold minPrev. -/

theorem stepMin_in {α : Type} [LinearOrderedAddCommMonoid α] (prev : ℕ → WithTop α)
    {w : ℕ} (acc : WithTop α × ℕ) {n : ℕ} (hn : n < w) :
    stepMin prev w acc (n : ℤ) = if prev n < acc.1 then (prev n, n) else acc := by
  have h1 : (0 : ℤ) ≤ (n : ℤ) := Int.natCast_nonneg n
  have h2 : (n : ℤ) < (w : ℤ) := by exact_mod_cast hn
  simp [stepMin, h1, h2]

theorem stepMin_skip {α : Type} [LinearOrderedAddCommMonoid α] (prev : ℕ → WithTop α)
    {w : ℕ} (acc : WithTop α × ℕ) {i : ℤ} (h : ¬(0 ≤ i ∧ i < (w : ℤ))) :
    stepMin prev w acc i = acc := by
  rw [stepMin, if_neg]
  rintro ⟨h1, h2, -⟩
  exact h ⟨h1, h2⟩

/-- Helper packaging the four conjuncts of the master characterization once
the fold result is known to be the pair of a stored energy and its column. -/
theorem minPrev_conjs {α : Type} [LinearOrderedAddCommMonoid α] (prev : ℕ → WithTop α) {w x m : ℕ}
    (hfold : minPrev prev w x = (prev m, m)) (hmem : m ∈ windowF x w)
    (hlb : ∀ j ∈ windowF x w, prev m ≤ prev j)
    (hlf : (∀ j, j < w → prev j ≠ ⊤) → ∀ j ∈ windowF x w, prev j = prev m → m ≤ j) :
    (minPrev prev w x).2 ∈ windowF x w ∧
    prev (minPrev prev w x).2 = (minPrev prev w x).1 ∧
    (∀ j ∈ windowF x w, (minPrev prev w x).1 ≤ prev j) ∧
    ((∀ j, j < w → prev j ≠ ⊤) →
      ∀ j ∈ windowF x w, prev j = (minPrev prev w x).1 → (minPrev prev w x).2 ≤ j) := by
  rw [hfold]
  exact ⟨hmem, rfl, hlb, hlf⟩

/-- Master characterization of the candidate fold: for a column x inside the
width, the fold result is a member of the clamped window, its first component
is the stored energy of its second component, it is a lower bound of the
window, and (when no stored energy is the top element) it is the leftmost
column attaining the minimum. -/
theorem minPrev_char {α : Type} [LinearOrderedAddCommMonoid α] (prev : ℕ → WithTop α)
    {w x : ℕ} (hx : x < w) :
    (minPrev prev w x).2 ∈ windowF x w ∧
    prev (minPrev prev w x).2 = (minPrev prev w x).1 ∧
    (∀ j ∈ windowF x w, (minPrev prev w x).1 ≤ prev j) ∧
    ((∀ j, j < w → prev j ≠ ⊤) →
      ∀ j ∈ windowF x w, prev j = (minPrev prev w x).1 → (minPrev prev w x).2 ≤ j) := by
  cases x with
  | zero =>
    have s1 : stepMin prev w ((⊤ : WithTop α), 0) (((0 : ℕ) : ℤ) - 1) = ((⊤ : WithTop α), 0) :=
      stepMin_skip prev _ (by omega)
    have e1 : minPrev prev w 0 =
        stepMin prev w (stepMin prev w ((⊤ : WithTop α), 0) ((0 : ℕ) : ℤ)) (((0 : ℕ) : ℤ) + 1) := by
      rw [minPrev]
      simp only [List.foldl]
      rw [s1]
    have e2 : stepMin prev w ((⊤ : WithTop α), 0) ((0 : ℕ) : ℤ) = (prev 0, 0) := by
      rw [stepMin_in prev _ hx]
      rcases eq_top_or_lt_top (prev 0) with hb | hb
      · rw [if_neg (by rw [hb]; exact lt_irrefl _), hb]
      · rw [if_pos hb]
    have e3 : (((0 : ℕ) : ℤ) + 1) = ((1 : ℕ) : ℤ) := by norm_num
    rw [e2, e3] at e1
    rcases lt_or_ge 1 w with hw2 | hw1
    · -- width at least 2: candidates are columns 0 and 1
      rw [stepMin_in prev _ hw2] at e1
      by_cases hc : prev 1 < prev 0
      · rw [if_pos hc] at e1
        refine minPrev_conjs prev e1 (by rw [mem_windowF]; omega) ?_ ?_
        · intro j hj
          rw [mem_windowF] at hj
          have hj2 : j = 0 ∨ j = 1 := by omega
          rcases hj2 with rfl | rfl
          · exact le_of_lt hc
          · exact le_refl _
        · intro _ j hj hval
          rw [mem_windowF] at hj
          have hj2 : j = 0 ∨ j = 1 := by omega
          rcases hj2 with rfl | rfl
          · exact absurd hval (ne_of_gt hc)
          · exact le_refl _
      · rw [if_neg hc] at e1
        refine minPrev_conjs prev e1 (by rw [mem_windowF]; omega) ?_ ?_
        · intro j hj
          rw [mem_windowF] at hj
          have hj2 : j = 0 ∨ j = 1 := by omega
          rcases hj2 with rfl | rfl
          · exact le_refl _
          · exact le_of_not_lt hc
        · intro _ j hj hval
          exact Nat.zero_le j
    · -- width exactly 1: the only candidate is column 0
      rw [stepMin_skip prev _ (by omega)] at e1
      refine minPrev_conjs prev e1 (by rw [mem_windowF]; omega) ?_ ?_
      · intro j hj
        rw [mem_windowF] at hj
        have hj2 : j = 0 := by omega
        subst hj2
        exact le_refl _
      · intro _ j hj hval
        exact Nat.zero_le j
  | succ n =>
    have hn : n < w := by omega
    have e1 : minPrev prev w (n + 1) =
        stepMin prev w (stepMin prev w (stepMin prev w ((⊤ : WithTop α), n + 1) ((n : ℕ) : ℤ))
          (((n + 1 : ℕ) : ℤ))) (((n + 2 : ℕ) : ℤ)) := by
      rw [minPrev]
      simp only [List.foldl]
      have c1 : ((n + 1 : ℕ) : ℤ) - 1 = ((n : ℕ) : ℤ) := by push_cast; ring
      have c2 : ((n + 1 : ℕ) : ℤ) + 1 = ((n + 2 : ℕ) : ℤ) := by push_cast; ring
      rw [c1, c2]
    rcases eq_top_or_lt_top (prev n) with ha | ha
    · -- the left candidate stores the top element (impossible once hfin holds)
      have e2 : stepMin prev w ((⊤ : WithTop α), n + 1) ((n : ℕ) : ℤ) = (⊤, n + 1) := by
        rw [stepMin_in prev _ hn, if_neg (by rw [ha]; exact lt_irrefl _)]
      have e3 : stepMin prev w ((⊤ : WithTop α), n + 1) (((n + 1 : ℕ) : ℤ)) = (prev (n + 1), n + 1) := by
        rw [stepMin_in prev _ hx]
        rcases eq_top_or_lt_top (prev (n + 1)) with hb | hb
        · rw [if_neg (by rw [hb]; exact lt_irrefl _), hb]
        · rw [if_pos hb]
      rw [e2, e3] at e1
      rcases lt_or_ge (n + 2) w with hw2 | hw2
      · rw [stepMin_in prev _ hw2] at e1
        by_cases hc : prev (n + 2) < prev (n + 1)
        · rw [if_pos hc] at e1
          refine minPrev_conjs prev e1 (by rw [mem_windowF]; omega) ?_ (fun hfin => (hfin n hn ha).elim)
          intro j hj
          rw [mem_windowF] at hj
          have hj2 : j = n ∨ j = n + 1 ∨ j = n + 2 := by omega
          rcases hj2 with rfl | rfl | rfl
          · rw [ha]; exact le_top
          · exact le_of_lt hc
          · exact le_refl _
        · rw [if_neg hc] at e1
          refine minPrev_conjs prev e1 (by rw [mem_windowF]; omega) ?_ (fun hfin => (hfin n hn ha).elim)
          intro j hj
          rw [mem_windowF] at hj
          have hj2 : j = n ∨ j = n + 1 ∨ j = n + 2 := by omega
          rcases hj2 with rfl | rfl | rfl
          · rw [ha]; exact le_top
          · exact le_refl _
          · exact le_of_not_lt hc
      · rw [stepMin_skip prev _ (by omega)] at e1
        refine minPrev_conjs prev e1 (by rw [mem_windowF]; omega) ?_ (fun hfin => (hfin n hn ha).elim)
        intro j hj
        rw [mem_windowF] at hj
        have hj2 : j = n ∨ j = n + 1 := by omega
        rcases hj2 with rfl | rfl
        · rw [ha]; exact le_top
        · exact le_refl _
    · -- the left candidate is finite and becomes the first accumulator
      have e2 : stepMin prev w ((⊤ : WithTop α), n + 1) ((n : ℕ) : ℤ) = (prev n, n) := by
        rw [stepMin_in prev _ hn, if_pos ha]
      rw [e2, stepMin_in prev _ hx] at e1
      by_cases hb : prev (n + 1) < prev n
      · rw [if_pos hb] at e1
        rcases lt_or_ge (n + 2) w with hw2 | hw2
        · rw [stepMin_in prev _ hw2] at e1
          by_cases hc : prev (n + 2) < prev (n + 1)
          · rw [if_pos hc] at e1
            refine minPrev_conjs prev e1 (by rw [mem_windowF]; omega) ?_ ?_
            · intro j hj
              rw [mem_windowF] at hj
              have hj2 : j = n ∨ j = n + 1 ∨ j = n + 2 := by omega
              rcases hj2 with rfl | rfl | rfl
              · exact le_of_lt (lt_trans hc hb)
              · exact le_of_lt hc
              · exact le_refl _
            · intro _ j hj hval
              rw [mem_windowF] at hj
              have hj2 : j = n ∨ j = n + 1 ∨ j = n + 2 := by omega
              rcases hj2 with rfl | rfl | rfl
              · exact absurd hval (ne_of_gt (lt_trans hc hb))
              · exact absurd hval (ne_of_gt hc)
              · exact le_refl _
          · rw [if_neg hc] at e1
            refine minPrev_conjs prev e1 (by rw [mem_windowF]; omega) ?_ ?_
            · intro j hj
              rw [mem_windowF] at hj
              have hj2 : j = n ∨ j = n + 1 ∨ j = n + 2 := by omega
              rcases hj2 with rfl | rfl | rfl
              · exact le_of_lt hb
              · exact le_refl _
              · exact le_of_not_lt hc
            · intro _ j hj hval
              rw [mem_windowF] at hj
              have hj2 : j = n ∨ j = n + 1 ∨ j = n + 2 := by omega
              rcases hj2 with rfl | rfl | rfl
              · exact absurd hval (ne_of_gt hb)
              · exact le_refl _
              · omega
        · rw [stepMin_skip prev _ (by omega)] at e1
          refine minPrev_conjs prev e1 (by rw [mem_windowF]; omega) ?_ ?_
          · intro j hj
            rw [mem_windowF] at hj
            have hj2 : j = n ∨ j = n + 1 := by omega
            rcases hj2 with rfl | rfl
            · exact le_of_lt hb
            · exact le_refl _
          · intro _ j hj hval
            rw [mem_windowF] at hj
            have hj2 : j = n ∨ j = n + 1 := by omega
            rcases hj2 with rfl | rfl
            · exact absurd hval (ne_of_gt hb)
            · exact le_refl _
      · rw [if_neg hb] at e1
        have hab : prev n ≤ prev (n + 1) := le_of_not_lt hb
        rcases lt_or_ge (n + 2) w with hw2 | hw2
        · rw [stepMin_in prev _ hw2] at e1
          by_cases hc : prev (n + 2) < prev n
          · rw [if_pos hc] at e1
            refine minPrev_conjs prev e1 (by rw [mem_windowF]; omega) ?_ ?_
            · intro j hj
              rw [mem_windowF] at hj
              have hj2 : j = n ∨ j = n + 1 ∨ j = n + 2 := by omega
              rcases hj2 with rfl | rfl | rfl
              · exact le_of_lt hc
              · exact le_of_lt (lt_of_lt_of_le hc hab)
              · exact le_refl _
            · intro _ j hj hval
              rw [mem_windowF] at hj
              have hj2 : j = n ∨ j = n + 1 ∨ j = n + 2 := by omega
              rcases hj2 with rfl | rfl | rfl
              · exact absurd hval (ne_of_gt hc)
              · exact absurd hval (ne_of_gt (lt_of_lt_of_le hc hab))
              · exact le_refl _
          · rw [if_neg hc] at e1
            refine minPrev_conjs prev e1 (by rw [mem_windowF]; omega) ?_ ?_
            · intro j hj
              rw [mem_windowF] at hj
              have hj2 : j = n ∨ j = n + 1 ∨ j = n + 2 := by omega
              rcases hj2 with rfl | rfl | rfl
              · exact le_refl _
              · exact hab
              · exact le_of_not_lt hc
            · intro _ j hj hval
              rw [mem_windowF] at hj
              omega
        · rw [stepMin_skip prev _ (by omega)] at e1
          refine minPrev_conjs prev e1 (by rw [mem_windowF]; omega) ?_ ?_
          · intro j hj
            rw [mem_windowF] at hj
            have hj2 : j = n ∨ j = n + 1 := by omega
            rcases hj2 with rfl | rfl
            · exact le_refl _
            · exact hab
          · intro _ j hj hval
            rw [mem_windowF] at hj
            omega

/-- The first component of the candidate fold equals the minimum of the
stored energies over the clamped window. -/
theorem minPrev_fst_eq_inf {α : Type} [LinearOrderedAddCommMonoid α] (prev : ℕ → WithTop α)
    {w x : ℕ} (hx : x < w) :
    (minPrev prev w x).1 = (windowF x w).inf' (windowF_nonempty hx) prev := by
  obtain ⟨hmem, hach, hlb, -⟩ := minPrev_char prev hx
  refine le_antisymm (Finset.le_inf' _ _ hlb) ?_
  calc (windowF x w).inf' (windowF_nonempty hx) prev ≤ prev (minPrev prev w x).2 :=
        Finset.inf'_le prev hmem
    _ = (minPrev prev w x).1 := hach

/-- Stored cumulative energies of in-range columns are never the top
element (the source never reads an Infinity entry back). -/
theorem cumul_ne_top {α : Type} [LinearOrderedAddCommMonoid α] (e : ℕ → ℕ → α) (w : ℕ) :
    ∀ y x, x < w → cumul e w y x ≠ ⊤ := by
  intro y
  induction y with
  | zero =>
    intro x hx
    rw [cumul]
    exact WithTop.coe_ne_top
  | succ y ih =>
    intro x hx
    rw [cumul]
    obtain ⟨hmem, hach, -, -⟩ := minPrev_char (cumul e w y) hx
    have h2 : (minPrev (cumul e w y) w x).2 < w := (mem_windowF.mp hmem).1
    have hne : (minPrev (cumul e w y) w x).1 ≠ ⊤ := by
      rw [← hach]
      exact ih _ h2
    exact WithTop.add_ne_top.mpr ⟨hne, WithTop.coe_ne_top⟩

/-! ## Optimality of the cumulative energies. -/

/-- Lower bound: every 8-connected seam ending at a pixel costs at least the
stored cumulative energy of that pixel. -/
theorem cumul_le_cost {α : Type} [LinearOrderedAddCommMonoid α] (e : ℕ → ℕ → α) (w : ℕ)
    {y x : ℕ} {p : List ℕ} (hp : IsSeamTo w y x p) :
    cumul e w y x ≤ ((costFrom e y p : α) : WithTop α) := by
  induction hp with
  | base hx =>
    simp [cumul, costFrom]
  | step hx hadj hp ih =>
    rename_i y x x' p
    obtain ⟨-, -, hlb, -⟩ := minPrev_char (cumul e w y) hx
    have hx' : x' ∈ windowF x w := mem_windowF.mpr ⟨hp.head_lt, hadj.1, hadj.2⟩
    have h1 : (minPrev (cumul e w y) w x).1 ≤ ((costFrom e y p : α) : WithTop α) :=
      le_trans (hlb x' hx') ih
    have h2 : costFrom e (y + 1) (x :: p) = e (y + 1) x + costFrom e y p := by
      rw [costFrom]
      simp
    rw [cumul, h2, WithTop.coe_add, add_comm ((e (y + 1) x : WithTop α))]
    exact add_le_add_right h1 _

/-- Attainment: the predecessor chain recorded by the fold yields a seam
whose cost is exactly the stored cumulative energy. -/
theorem exists_seam_cost_eq {α : Type} [LinearOrderedAddCommMonoid α] (e : ℕ → ℕ → α) (w : ℕ) :
    ∀ y x, x < w → ∃ p : List ℕ, IsSeamTo w y x p ∧ ((costFrom e y p : α) : WithTop α) = cumul e w y x := by
  intro y
  induction y with
  | zero =>
    intro x hx
    refine ⟨[x], IsSeamTo.base hx, ?_⟩
    simp [cumul, costFrom]
  | succ y ih =>
    intro x hx
    obtain ⟨hmem, hach, -, -⟩ := minPrev_char (cumul e w y) hx
    have hm := mem_windowF.mp hmem
    obtain ⟨p, hp, hcost⟩ := ih (minPrev (cumul e w y) w x).2 hm.1
    refine ⟨x :: p, IsSeamTo.step hx ⟨hm.2.1, hm.2.2⟩ hp, ?_⟩
    have h2 : costFrom e (y + 1) (x :: p) = e (y + 1) x + costFrom e y p := by
      rw [costFrom]
      simp
    rw [h2, WithTop.coe_add, hcost, hach, cumul, add_comm]

/-! ## The last-row scan. -/

/-- Characterization of the scan fold: when the width is positive and the
scanned values are finite, the fold returns the leftmost column of minimum
value in the last row, together with that value. -/
theorem lastMinScan_fold {α : Type} [LinearOrderedAddCommMonoid α] (g : ℕ → WithTop α) (h : ℕ) :
    ∀ w : ℕ, 0 < w → (∀ j, j < w → g j ≠ ⊤) →
    ∃ c : ℕ, ((List.range w).foldl
        (fun acc x => if g x < acc.1 then (g x, some (⟨x, h - 1⟩ : Coordinate)) else acc)
        ((⊤ : WithTop α), (none : Option Coordinate))) = (g c, some ⟨c, h - 1⟩) ∧
      c < w ∧ (∀ j, j < w → g c ≤ g j) ∧ (∀ j, j < w → g j = g c → c ≤ j) := by
  intro w
  induction w with
  | zero => omega
  | succ w ih =>
    intro hw hfin
    rw [List.range_succ, List.foldl_append]
    rcases Nat.eq_zero_or_pos w with rfl | hw0
    · refine ⟨0, ?_, by omega, ?_, ?_⟩
      · simp only [List.range_zero, List.foldl_nil, List.foldl_cons, List.foldl_nil]
        rw [if_pos (lt_top_iff_ne_top.mpr (hfin 0 (by omega)))]
      · intro j hj
        have hj0 : j = 0 := by omega
        subst hj0
        exact le_refl _
      · intro j hj hval
        exact Nat.zero_le j
    · obtain ⟨c, hc, hcw, hmin, hleft⟩ := ih hw0 (fun j hj => hfin j (by omega))
      rw [hc]
      simp only [List.foldl_cons, List.foldl_nil]
      by_cases hcmp : g w < g c
      · rw [if_pos hcmp]
        refine ⟨w, rfl, by omega, ?_, ?_⟩
        · intro j hj
          rcases Nat.lt_succ_iff_lt_or_eq.mp hj with hj2 | rfl
          · exact le_of_lt (lt_of_lt_of_le hcmp (hmin j hj2))
          · exact le_refl _
        · intro j hj hval
          rcases Nat.lt_succ_iff_lt_or_eq.mp hj with hj2 | rfl
          · exact absurd hval (ne_of_gt (lt_of_lt_of_le hcmp (hmin j hj2)))
          · exact le_refl _
      · rw [if_neg hcmp]
        refine ⟨c, rfl, by omega, ?_, ?_⟩
        · intro j hj
          rcases Nat.lt_succ_iff_lt_or_eq.mp hj with hj2 | rfl
          · exact hmin j hj2
          · exact le_of_not_lt hcmp
        · intro j hj hval
          rcases Nat.lt_succ_iff_lt_or_eq.mp hj with hj2 | rfl
          · exact hleft j hj2 hval
          · omega

/-- The scan of the last row returns the leftmost column of minimum
cumulative energy when the width is positive. -/
theorem lastMinScan_spec {α : Type} [LinearOrderedAddCommMonoid α] (e : ℕ → ℕ → α)
    {w : ℕ} (h y : ℕ) (hw : 0 < w) :
    ∃ c : ℕ, lastMinScan (cumul e w y) w h = some ⟨c, h - 1⟩ ∧ c < w ∧
      (∀ j, j < w → cumul e w y c ≤ cumul e w y j) ∧
      (∀ j, j < w → cumul e w y j = cumul e w y c → c ≤ j) := by
  obtain ⟨c, hc, hcw, hmin, hleft⟩ :=
    lastMinScan_fold (cumul e w y) h w hw (fun j hj => cumul_ne_top e w y j hj)
  refine ⟨c, ?_, hcw, hmin, hleft⟩
  rw [lastMinScan, hc]

/-! ## Concrete inputs used for counterexamples and witnesses. -/

/-- A concrete 3-wide, 2-row energy map with values 1, 1, 0 in each row. -/
def eDemo : ℕ → ℕ → ℤ
  | 0, 0 => 1
  | 0, 1 => 1
  | 0, 2 => 0
  | 1, 0 => 1
  | 1, 1 => 1
  | 1, 2 => 0
  | _, _ => 0

/-! ## Claim theorems about the seam finder. -/

/-- C5: in the dynamic-programming table built by findLowEnergySeam, row 0
entries equal row 0 of the energy map, and every entry of a later row equals
the energy-map entry plus the minimum cumulative energy over the columns
x - 1, x, x + 1 of the row above clamped to the width; consequently each
entry is the minimum total energy of any 8-connected top-to-bottom seam
ending at that pixel (lower bound over all such seams, and attainment). -/
theorem claim_C5_dp_table {α : Type} [LinearOrderedAddCommMonoid α] (e : ℕ → ℕ → α)
    (w h y x : ℕ) (hx : x < w) (_hyh : y < h) :
    cumul e w 0 x = ((e 0 x : α) : WithTop α) ∧
    (∀ z : ℕ, cumul e w (z + 1) x =
      ((e (z + 1) x : α) : WithTop α) +
        (windowF x w).inf' (windowF_nonempty hx) (cumul e w z)) ∧
    (∀ p : List ℕ, IsSeamTo w y x p → cumul e w y x ≤ ((costFrom e y p : α) : WithTop α)) ∧
    (∃ p : List ℕ, IsSeamTo w y x p ∧ ((costFrom e y p : α) : WithTop α) = cumul e w y x) := by
  refine ⟨by rw [cumul], ?_, fun p hp => cumul_le_cost e w hp, exists_seam_cost_eq e w y x hx⟩
  intro z
  rw [cumul, minPrev_fst_eq_inf (cumul e w z) hx, add_comm]

theorem claim_C5_dp_table_witness :
    ((1 : ℕ) < 3 ∧ (1 : ℕ) < 2) ∧
    (cumul eDemo 3 0 1 = ((eDemo 0 1 : ℤ) : WithTop ℤ) ∧
     (∀ z : ℕ, cumul eDemo 3 (z + 1) 1 =
       ((eDemo (z + 1) 1 : ℤ) : WithTop ℤ) +
         (windowF 1 3).inf' (windowF_nonempty (by decide)) (cumul eDemo 3 z)) ∧
     (∀ p : List ℕ, IsSeamTo 3 1 1 p →
       cumul eDemo 3 1 1 ≤ ((costFrom eDemo 1 p : ℤ) : WithTop ℤ)) ∧
     (∃ p : List ℕ, IsSeamTo 3 1 1 p ∧
       ((costFrom eDemo 1 p : ℤ) : WithTop ℤ) = cumul eDemo 3 1 1)) :=
  ⟨⟨by decide, by decide⟩, claim_C5_dp_table eDemo 3 2 1 1 (by decide) (by decide)⟩

/-- C6: ties are broken leftmost.  Among the candidate predecessors of a
pixel the recorded column attains the window minimum and is the smallest
column doing so; and the backtracking start returned by the last-row scan
attains the last-row minimum at the leftmost such column, findLowEnergySeam
backtracking from exactly that column. -/
theorem claim_C6_leftmost_ties {α : Type} [LinearOrderedAddCommMonoid α] (e : ℕ → ℕ → α)
    (w h y x : ℕ) (hx : x < w) (hy1 : 1 ≤ y) (hyh : y < h) :
    (predX e w y x ∈ windowF x w ∧
     cumul e w (y - 1) (predX e w y x) =
       (windowF x w).inf' (windowF_nonempty hx) (cumul e w (y - 1)) ∧
     (∀ j ∈ windowF x w,
       cumul e w (y - 1) j = (windowF x w).inf' (windowF_nonempty hx) (cumul e w (y - 1)) →
         predX e w y x ≤ j)) ∧
    (∃ c : ℕ, lastMinScan (cumul e w (h - 1)) w h = some ⟨c, h - 1⟩ ∧
      findLowEnergySeam e w h = some (backtrack e w (h - 1) c) ∧ c < w ∧
      (∀ j, j < w → cumul e w (h - 1) c ≤ cumul e w (h - 1) j) ∧
      (∀ j, j < w → cumul e w (h - 1) j = cumul e w (h - 1) c → c ≤ j)) := by
  constructor
  · obtain ⟨hmem, hach, hlb, hlf⟩ := minPrev_char (cumul e w (y - 1)) hx
    have hfin : ∀ j, j < w → cumul e w (y - 1) j ≠ ⊤ :=
      fun j hj => cumul_ne_top e w (y - 1) j hj
    refine ⟨hmem, ?_, ?_⟩
    · rw [predX, hach, minPrev_fst_eq_inf (cumul e w (y - 1)) hx]
    · intro j hj hval
      rw [predX]
      refine hlf hfin j hj ?_
      rw [hval, minPrev_fst_eq_inf (cumul e w (y - 1)) hx]
  · obtain ⟨c, hscan, hcw, hmin, hleft⟩ :=
      lastMinScan_spec e h (h - 1) (lt_of_le_of_lt (Nat.zero_le x) hx)
    refine ⟨c, hscan, ?_, hcw, hmin, hleft⟩
    have hh : ¬(0 < w ∧ h = 0) := by omega
    simp only [findLowEnergySeam]
    rw [if_neg hh, hscan]

theorem claim_C6_leftmost_ties_witness :
    ((1 : ℕ) < 3 ∧ (1 : ℕ) ≤ 1 ∧ (1 : ℕ) < 2) ∧
    ((predX eDemo 3 1 1 ∈ windowF 1 3 ∧
      cumul eDemo 3 (1 - 1) (predX eDemo 3 1 1) =
        (windowF 1 3).inf' (windowF_nonempty (by decide)) (cumul eDemo 3 (1 - 1)) ∧
      (∀ j ∈ windowF 1 3,
        cumul eDemo 3 (1 - 1) j =
          (windowF 1 3).inf' (windowF_nonempty (by decide)) (cumul eDemo 3 (1 - 1)) →
          predX eDemo 3 1 1 ≤ j)) ∧
     (∃ c : ℕ, lastMinScan (cumul eDemo 3 (2 - 1)) 3 2 = some ⟨c, 2 - 1⟩ ∧
       findLowEnergySeam eDemo 3 2 = some (backtrack eDemo 3 (2 - 1) c) ∧ c < 3 ∧
       (∀ j, j < 3 → cumul eDemo 3 (2 - 1) c ≤ cumul eDemo 3 (2 - 1) j) ∧
       (∀ j, j < 3 → cumul eDemo 3 (2 - 1) j = cumul eDemo 3 (2 - 1) c → c ≤ j))) :=
  ⟨⟨by decide, by decide, by decide⟩,
   claim_C6_leftmost_ties eDemo 3 2 1 1 (by decide) (by decide) (by decide)⟩

/-- C3 evaluated at a failing input: on the all-zero 1-wide, 2-row energy
map the seam comes back bottom-to-top, pixel of row 1 first, and differs
from the top-to-bottom ordering the claim requires; the source never
reverses the backtracked list. -/
theorem claim_C3_eval :
    findLowEnergySeam (fun _ _ => (0 : ℤ)) 1 2 = some [⟨0, 1⟩, ⟨0, 0⟩] ∧
    some [(⟨0, 1⟩ : Coordinate), ⟨0, 0⟩] ≠ some [(⟨0, 0⟩ : Coordinate), ⟨0, 1⟩] := by
  constructor
  · decide
  · decide

/-- C4 evaluated at a failing input: on the energy map with rows 1, 1, 0 and
1, 1, 0 (width 3, height 2) the returned seam is the list (2, 1), (0, 2):
the entry of index 0 does not have y = 0, the entry of index 1 does not have
y = 1 (the source stores the row-0 coordinate with its fields swapped), and
the consecutive x-coordinates 2 and 0 differ by more than 1. -/
theorem claim_C4_eval :
    findLowEnergySeam eDemo 3 2 = some [⟨2, 1⟩, ⟨0, 2⟩] ∧
    (⟨2, 1⟩ : Coordinate).y ≠ 0 ∧ (⟨0, 2⟩ : Coordinate).y ≠ 1 ∧
    ¬((⟨2, 1⟩ : Coordinate).x ≤ (⟨0, 2⟩ : Coordinate).x + 1 ∧
      (⟨0, 2⟩ : Coordinate).x ≤ (⟨2, 1⟩ : Coordinate).x + 1) := by
  refine ⟨by decide, by decide, by decide, by decide⟩

/-- C9 counterexample: on a width-1, height-0 energy map the function does
not return the empty seam; the row-0 population reads a row that does not
exist and fails. -/
theorem claim_C9_counterexample :
    findLowEnergySeam (fun _ _ => (0 : ℤ)) 1 0 = none ∧
    findLowEnergySeam (fun _ _ => (0 : ℤ)) 1 0 ≠ some [] := by
  constructor
  · decide
  · decide

/-- C9 amended: for every energy map of width 0 findLowEnergySeam returns
the empty seam and does not fail; for height 0 with positive width it
instead fails while populating row 0. -/
theorem claim_C9_empty {α : Type} [LinearOrderedAddCommMonoid α] (e : ℕ → ℕ → α) (h : ℕ) :
    findLowEnergySeam e 0 h = some [] ∧
    (∀ w : ℕ, 0 < w → findLowEnergySeam e w 0 = none) := by
  constructor
  · rfl
  · intro w hw
    simp [findLowEnergySeam, hw]

theorem claim_C9_empty_witness :
    findLowEnergySeam (fun _ _ => (0 : ℤ)) 0 3 = some [] ∧
    ((0 : ℕ) < 2 ∧ findLowEnergySeam (fun _ _ => (0 : ℤ)) 2 0 = none) :=
  ⟨(claim_C9_empty (fun _ _ => (0 : ℤ)) 3).1,
   ⟨by decide, (claim_C9_empty (fun _ _ => (0 : ℤ)) 0).2 2 (by decide)⟩⟩

/-! ## Pixels, energies and the resize pipeline, source lines 34-122. -/

/-- The two runtime failures the pipeline can surface: the explicit upsizing
throw of source line 44, and a TypeError from touching null / undefined. -/
inductive JsError where
  | unsupported
  | typeError
deriving DecidableEq

/-- Source lines 114-122: converts the coordinate to a flat index using the
physical width img.width (not the shrinking logical width) and returns the 4
channels starting at 4 times that index. -/
def getPixel (img : ImageData) (c : Coordinate) : Color :=
  let i := c.y * img.width + c.x
  { r := img.data (i * 4), g := img.data (i * 4 + 1),
    b := img.data (i * 4 + 2), a := img.data (i * 4 + 3) }

/-- The squared RGB distance of two pixels, the expression of source lines
100 and 107 (the alpha channel is ignored). -/
def sqDist (p m : Color) : ℤ :=
  (p.r - m.r) ^ 2 + (p.g - m.g) ^ 2 + (p.b - m.b) ^ 2

/-- Source lines 92-111.  The branch computing rEnergy is guarded by the
test on left (source line 105), not on right: with left null both
contributions stay 0 whatever right is, and with left non-null the code
destructures right, which throws a TypeError when right is null (modelled
by none). -/
noncomputable def getPixelEnergy (left : Option Color) (middle : Color)
    (right : Option Color) : Option ℝ :=
  match left with
  | none => some (Real.sqrt ((((0 : ℤ) + (0 : ℤ) : ℤ) : ℝ)))
  | some l =>
    match right with
    | none => none
    | some rp => some (Real.sqrt (((sqDist l middle + sqDist rp middle : ℤ) : ℝ)))

/-- Modelled from the spec: the energy formula of spec section 4.1, the
refinement target that claim C2 compares getPixelEnergy against.  Each
present neighbor contributes its squared RGB distance to the middle pixel,
an absent neighbor contributes 0, and the energy is the square root of the
sum of the two contributions. -/
noncomputable def getPixelEnergySpec (left : Option Color) (middle : Color)
    (right : Option Color) : ℝ :=
  Real.sqrt ((((left.elim 0 (fun l => sqDist l middle)) +
               (right.elim 0 (fun rp => sqDist rp middle)) : ℤ) : ℝ))

/-- Source lines 69-82: builds the energy map row-major over the logical
size; each entry calls getPixelEnergy with the left neighbor when x is at
least 1 and the right neighbor when x + 1 is below the width.  The source
preallocates the matrix with Infinity entries and overwrites all of them;
the build is modelled directly, and a TypeError thrown by getPixelEnergy
aborts the build through the Option bind of mapM. -/
noncomputable def calculateEnergyMap (img : ImageData) (w h : ℕ) : Option (List (List ℝ)) :=
  (List.range h).mapM (fun y =>
    (List.range w).mapM (fun x =>
      getPixelEnergy
        (if 1 ≤ x then some (getPixel img ⟨x - 1, y⟩) else none)
        (getPixel img ⟨x, y⟩)
        (if x + 1 < w then some (getPixel img ⟨x + 1, y⟩) else none)))

/-- Modelled from the spec: the source calls deleteSeam at line 59 but the
repository contains no definition of it.  Spec section 4.3 (SeamRemover):
for each row y, remove the pixel at the seam x-coordinate for that row by
shifting every pixel of larger column one position left within that row
(columns from seam.x + 1 up to the logical width w move to seam.x up to
w - 1); the content of the last logical column becomes unused; all four
channels of a pixel move together; the width field is not altered.  The
buffer keeps the physical stride img.width, so the pixel of flat index i
sits at row i / 4 / img.width and column i / 4 % img.width. -/
def deleteSeam (img : ImageData) (seam : List Coordinate) (w : ℕ) : ImageData :=
  { img with data := fun i =>
      let p := i / 4
      let y := p / img.width
      let x := p % img.width
      let sx := (seam.getD y ⟨0, 0⟩).x
      if y < img.height ∧ sx ≤ x ∧ x + 1 < w then img.data (i + 4) else img.data i }

/-- The loop of source lines 51-63, recursing on the remaining number of
pixels to remove; the mutable size record is threaded through the arguments
w and h (the height never changes, and within every run reachable from the
claims the width stays positive while iterations remain, so the natural
subtraction w - 1 agrees with the JavaScript decrement).  The energy map
handed to findLowEnergySeam is read through getD, sound because a
successful calculateEnergyMap yields exactly h rows of w entries and the
seam finder reads only those.  A TypeError inside an iteration propagates
out together with the buffer as mutated so far. -/
noncomputable def resizeLoop : ℕ → ImageData → ℕ → ℕ → ImageData × Except JsError ImageSize
  | 0, img, w, h => (img, Except.ok ⟨w, h⟩)
  | n + 1, img, w, h =>
    match calculateEnergyMap img w h with
    | none => (img, Except.error JsError.typeError)
    | some em =>
      match findLowEnergySeam (fun y x => (em.getD y []).getD x 0) w h with
      | none => (img, Except.error JsError.typeError)
      | some seam => resizeLoop n (deleteSeam img seam w) (w - 1) h

/-- Source lines 36-66: computes pxToRemove as an integer; a negative value
throws the upsizing error before any other work; otherwise the loop body
runs pxToRemove times and the final buffer and size are returned. -/
noncomputable def ResizeImageWidth (img : ImageData) (toWidth : ℤ) :
    ImageData × Except JsError ImageSize :=
  if (img.width : ℤ) - toWidth < 0 then (img, Except.error JsError.unsupported)
  else resizeLoop ((img.width : ℤ) - toWidth).toNat img img.width img.height

/-! ## Concrete images. -/

/-- An all-zero 1 by 1 image. -/
def ex1 : ImageData := { width := 1, height := 1, data := fun _ => 0 }

/-- An all-zero 2 by 1 image. -/
def img21 : ImageData := { width := 2, height := 1, data := fun _ => 0 }

/-- An all-zero 3 by 1 image. -/
def img31 : ImageData := { width := 3, height := 1, data := fun _ => 0 }

/-- A 3 by 1 image whose channel at flat index i holds the value i, so that
every pixel is distinguishable. -/
def imgIdx : ImageData := { width := 3, height := 1, data := fun i => (i : ℤ) }

/-- A black pixel. -/
def cBlack : Color := ⟨0, 0, 0, 255⟩

/-- A pixel whose red channel differs from black by 1. -/
def cRed : Color := ⟨1, 0, 0, 255⟩

/-! ## Claim theorems about the pipeline. -/

/-- C7: for every image and every target width strictly greater than the
current width, ResizeImageWidth fails with the unsupported-operation error
before performing any work, and the returned pixel buffer is exactly the
input image, unmutated. -/
theorem claim_C7_upsizing (img : ImageData) (toWidth : ℤ) (h : (img.width : ℤ) < toWidth) :
    ResizeImageWidth img toWidth = (img, Except.error JsError.unsupported) := by
  unfold ResizeImageWidth
  rw [if_pos (by omega)]

theorem claim_C7_upsizing_witness :
    ((ex1.width : ℤ) < 2) ∧ ResizeImageWidth ex1 2 = (ex1, Except.error JsError.unsupported) :=
  ⟨by decide, claim_C7_upsizing ex1 2 (by decide)⟩

/-- C1 evaluated at a failing input: resizing the all-zero 2 by 1 image to
width 1 (within the claimed safe range) throws a TypeError during the first
energy-map computation, at the pixel x = 1 whose right neighbor is null
while the branch reading it is guarded by left, rather than completing. -/
theorem claim_C1_eval :
    (ResizeImageWidth img21 1).2 = Except.error JsError.typeError := by
  rfl

/-- C8 evaluated at a failing input: resizing the all-zero 3 by 1 image to
width 2 propagates the same TypeError instead of returning a size of width
2 and height 1. -/
theorem claim_C8_eval :
    (ResizeImageWidth img31 2).2 = Except.error JsError.typeError ∧
    (Except.error JsError.typeError : Except JsError ImageSize) ≠ Except.ok ⟨2, 1⟩ := by
  exact ⟨rfl, fun hcon => Except.noConfusion hcon⟩

/-- C2 evaluated at failing inputs.  With a present left neighbor and an
absent right neighbor (the pixel at x = width - 1 of any row of width at
least 2) the code throws (none) where the spec formula yields a value, 0
here; with an absent left neighbor and a present right neighbor whose red
channel differs by 1 (a pixel at x = 0) the code yields 0, ignoring the
right contribution entirely, where the spec formula yields 1. -/
theorem claim_C2_eval :
    getPixelEnergy (some cBlack) cBlack none = none ∧
    getPixelEnergySpec (some cBlack) cBlack none = 0 ∧
    getPixelEnergy none cBlack (some cRed) = some 0 ∧
    getPixelEnergySpec none cBlack (some cRed) = 1 := by
  refine ⟨rfl, ?_, ?_, ?_⟩
  · show Real.sqrt _ = 0
    norm_num [getPixelEnergySpec, sqDist, cBlack]
  · show some (Real.sqrt _) = some 0
    norm_num [getPixelEnergy]
  · show Real.sqrt _ = 1
    norm_num [getPixelEnergySpec, sqDist, cBlack, cRed]

/-! ## C10: getPixel and the physical stride. -/

theorem flat_decode {W : ℕ} (y x : ℕ) (hx : x < W) :
    (y * W + x) / W = y ∧ (y * W + x) % W = x := by
  have hW : 0 < W := by omega
  have h1 : y * W + x = x + W * y := by ring
  constructor
  · rw [h1, Nat.add_mul_div_left x y hW, Nat.div_eq_of_lt hx, Nat.zero_add]
  · rw [h1, Nat.add_mul_mod_self_left, Nat.mod_eq_of_lt hx]

/-- Action of the modelled seam removal on one channel of one in-range
pixel: left of the removed column of its row the channel is untouched, from
the removed column on (while still inside the shrunk logical width) the
channel of the right neighbor pixel moves in. -/
theorem deleteSeam_data (img : ImageData) (seam : List Coordinate) (w x y ch : ℕ)
    (hch : ch < 4) (hy : y < img.height) (hxW : x < img.width) :
    (deleteSeam img seam w).data ((y * img.width + x) * 4 + ch) =
      if (seam.getD y ⟨0, 0⟩).x ≤ x ∧ x + 1 < w then
        img.data ((y * img.width + x) * 4 + ch + 4)
      else img.data ((y * img.width + x) * 4 + ch) := by
  have e4 : ((y * img.width + x) * 4 + ch) / 4 = y * img.width + x := by
    rw [Nat.mul_comm (y * img.width + x) 4, Nat.mul_add_div (by omega),
      Nat.div_eq_of_lt hch, Nat.add_zero]
  obtain ⟨ey, ex⟩ := flat_decode y x hxW
  show (if ((y * img.width + x) * 4 + ch) / 4 / img.width < img.height ∧
          (seam.getD (((y * img.width + x) * 4 + ch) / 4 / img.width) ⟨0, 0⟩).x ≤
            ((y * img.width + x) * 4 + ch) / 4 % img.width ∧
          ((y * img.width + x) * 4 + ch) / 4 % img.width + 1 < w then
        img.data ((y * img.width + x) * 4 + ch + 4)
      else img.data ((y * img.width + x) * 4 + ch)) = _
  rw [e4, ey, ex]
  by_cases hc : (seam.getD y ⟨0, 0⟩).x ≤ x ∧ x + 1 < w
  · rw [if_pos ⟨hy, hc.1, hc.2⟩, if_pos hc]
  · rw [if_neg (fun hfull => hc ⟨hfull.2.1, hfull.2.2⟩), if_neg hc]

/-- C10: getPixel converts a coordinate to a flat index with the physical
width img.width, not the shrinking logical width, so after the (modelled)
removal of a seam has compacted each row in place, reading any coordinate
still inside the shrunk logical width returns the intended pixel: the
original pixel itself left of the removed column of its row, and the
original right neighbor from that column on. -/
theorem claim_C10_getPixel (img : ImageData) (seam : List Coordinate) (w x y : ℕ)
    (hw : w ≤ img.width) (hy : y < img.height) (hx1 : x + 1 < w) :
    getPixel (deleteSeam img seam w) ⟨x, y⟩ =
      (if x < (seam.getD y ⟨0, 0⟩).x then getPixel img ⟨x, y⟩ else getPixel img ⟨x + 1, y⟩) := by
  have hxW : x < img.width := by omega
  have hget : ∀ (im : ImageData) (a b : ℕ), getPixel im ⟨a, b⟩ =
      ⟨im.data ((b * im.width + a) * 4 + 0), im.data ((b * im.width + a) * 4 + 1),
       im.data ((b * im.width + a) * 4 + 2), im.data ((b * im.width + a) * 4 + 3)⟩ :=
    fun im a b => rfl
  have hwidth : (deleteSeam img seam w).width = img.width := rfl
  by_cases hsx : x < (seam.getD y ⟨0, 0⟩).x
  · rw [if_pos hsx, hget, hget, hwidth]
    have hc : ¬((seam.getD y ⟨0, 0⟩).x ≤ x ∧ x + 1 < w) := by omega
    rw [deleteSeam_data img seam w x y 0 (by omega) hy hxW, if_neg hc,
      deleteSeam_data img seam w x y 1 (by omega) hy hxW, if_neg hc,
      deleteSeam_data img seam w x y 2 (by omega) hy hxW, if_neg hc,
      deleteSeam_data img seam w x y 3 (by omega) hy hxW, if_neg hc]
  · rw [if_neg hsx, hget, hget, hwidth]
    have hc : (seam.getD y ⟨0, 0⟩).x ≤ x ∧ x + 1 < w := ⟨by omega, hx1⟩
    rw [deleteSeam_data img seam w x y 0 (by omega) hy hxW, if_pos hc,
      deleteSeam_data img seam w x y 1 (by omega) hy hxW, if_pos hc,
      deleteSeam_data img seam w x y 2 (by omega) hy hxW, if_pos hc,
      deleteSeam_data img seam w x y 3 (by omega) hy hxW, if_pos hc]
    have hidx : ∀ ch : ℕ, (y * img.width + x) * 4 + ch + 4 = (y * img.width + (x + 1)) * 4 + ch := by
      intro ch
      ring
    rw [hidx 0, hidx 1, hidx 2, hidx 3]

theorem claim_C10_getPixel_witness :
    (3 ≤ imgIdx.width ∧ 0 < imgIdx.height ∧ 1 + 1 < 3) ∧
    getPixel (deleteSeam imgIdx [⟨1, 0⟩] 3) ⟨1, 0⟩ =
      (if 1 < (([(⟨1, 0⟩ : Coordinate)] : List Coordinate).getD 0 ⟨0, 0⟩).x then
        getPixel imgIdx ⟨1, 0⟩ else getPixel imgIdx ⟨2, 0⟩) :=
  ⟨⟨by decide, by decide, by decide⟩,
   claim_C10_getPixel imgIdx [⟨1, 0⟩] 3 1 0 (by decide) (by decide) (by decide)⟩

end SeamCarving
